import Mathlib

/-!
Verification of the block-index skip-list and the multi-algorithm
proof-of-work accounting of `src/chain.cpp` (Myriadcoin).

The C++ code is shallowly embedded: 256-bit `arith_uint256` values become
`Nat` with explicit reduction modulo `2^256` exactly where the C++
arithmetic wraps; `CBlockIndex` pointers become an inductive tree where a
node carries (copies of) its predecessor and skip ancestors, so pointer
equality of immutable nodes becomes structural equality; loops become fuel
or structural recursion with exactly the bounds of the source.
-/

set_option maxRecDepth 40000

namespace Myriad

/-! ## 256-bit wrapping arithmetic (model of `arith_uint256`) -/

/-- Modulus of `arith_uint256` values. -/
def W256 : Nat := 2 ^ 256

/-- Largest representable `arith_uint256` value. -/
def MASK256 : Nat := 2 ^ 256 - 1

/-- Wrapping addition, as `arith_uint256::operator+=`. -/
def add256 (a b : Nat) : Nat := (a + b) % W256

/-- Wrapping subtraction, as `arith_uint256::operator-=`. -/
def sub256 (a b : Nat) : Nat := (a + (W256 - b % W256)) % W256

/-- Wrapping multiplication, as `arith_uint256::operator*=`. -/
def mul256 (a b : Nat) : Nat := (a * b) % W256

/-- Wrapping left shift, as `arith_uint256::operator<<=`. -/
def shl256 (a n : Nat) : Nat := (a <<< n) % W256

/-- Fuelled bit-length helper; fuel `257` is enough for any value of at
most 256 bits. -/
def bitsAux : Nat → Nat → Nat
  | 0, _ => 0
  | f + 1, n => if n = 0 then 0 else bitsAux f (n / 2) + 1

/-- Model of `arith_uint256::bits()`: index of the highest set bit plus
one, and `0` for `0`. -/
def bits256 (n : Nat) : Nat := bitsAux 257 n

/-! ## Skip heights -/

/-- Turn the lowest set bit of `n` into `0` (`InvertLowestOne`). -/
def invertLowestOne (n : Nat) : Nat := n &&& (n - 1)

/-- Model of `GetSkipHeight`: the height the `pskip` pointer jumps back
to.  Heights are non-negative in every reachable call, so `Nat` suffices. -/
def skipHeight (height : Nat) : Nat :=
  if height < 2 then 0
  else if height &&& 1 = 1 then invertLowestOne (invertLowestOne (height - 1)) + 1
  else invertLowestOne height

/-! ## Block index nodes

`CBlockIndex` fields used by `chain.cpp`.  The compact-difficulty decode
(`arith_uint256::SetCompact`) lives in `arith_uint256.cpp`, outside this
repository slice; following the spec, which treats the decode abstractly
("decode `difficultyBits` into a 256-bit target" plus negative/overflow
flags), a node carries the decode's three outputs directly. -/

/-- Modelled from the spec: per-node data.  `target`, `fNegative` and
`fOverflow` are the outputs of the external compact decode of the node's
difficulty bits; `algo` is the node's algorithm tag (`GetAlgo()`);
`nChainWork` is the accumulated chain work. -/
structure BlockData where
  nHeight : Nat
  algo : Nat
  target : Nat
  fNegative : Bool
  fOverflow : Bool
  nChainWork : Nat
deriving DecidableEq, Repr

/-- A connected block index node.  `pprev` and `pskip` are the two
ancestor pointers; a node value contains copies of the pointed-to nodes,
so node identity is structural equality. -/
inductive CBlockIndex : Type where
  | node (d : BlockData) (pprev : Option CBlockIndex) (pskip : Option CBlockIndex)

/-- Decidable structural equality of nodes (pointer equality of
immutable, uniquely-hashed nodes in the source). -/
def decEqB : (a b : CBlockIndex) → Decidable (a = b)
  | .node d1 none none, .node d2 none none =>
      if h : d1 = d2 then isTrue (by rw [h]) else isFalse (by intro he; simp at he; exact h he)
  | .node d1 none (some s1), .node d2 none (some s2) =>
      if h : d1 = d2 then
        match decEqB s1 s2 with
        | isTrue hs => isTrue (by rw [h, hs])
        | isFalse hs => isFalse (by intro he; simp at he; exact hs he.2)
      else isFalse (by intro he; simp at he; exact h he.1)
  | .node d1 (some p1) none, .node d2 (some p2) none =>
      if h : d1 = d2 then
        match decEqB p1 p2 with
        | isTrue hp => isTrue (by rw [h, hp])
        | isFalse hp => isFalse (by intro he; simp at he; exact hp he.2)
      else isFalse (by intro he; simp at he; exact h he.1)
  | .node d1 (some p1) (some s1), .node d2 (some p2) (some s2) =>
      if h : d1 = d2 then
        match decEqB p1 p2 with
        | isTrue hp =>
          match decEqB s1 s2 with
          | isTrue hs => isTrue (by rw [h, hp, hs])
          | isFalse hs => isFalse (by intro he; simp at he; exact hs he.2.2)
        | isFalse hp => isFalse (by intro he; simp at he; exact hp he.2.1)
      else isFalse (by intro he; simp at he; exact h he.1)
  | .node _ none none, .node _ none (some _) => isFalse (by intro he; simp at he)
  | .node _ none none, .node _ (some _) none => isFalse (by intro he; simp at he)
  | .node _ none none, .node _ (some _) (some _) => isFalse (by intro he; simp at he)
  | .node _ none (some _), .node _ none none => isFalse (by intro he; simp at he)
  | .node _ none (some _), .node _ (some _) none => isFalse (by intro he; simp at he)
  | .node _ none (some _), .node _ (some _) (some _) => isFalse (by intro he; simp at he)
  | .node _ (some _) none, .node _ none none => isFalse (by intro he; simp at he)
  | .node _ (some _) none, .node _ none (some _) => isFalse (by intro he; simp at he)
  | .node _ (some _) none, .node _ (some _) (some _) => isFalse (by intro he; simp at he)
  | .node _ (some _) (some _), .node _ none none => isFalse (by intro he; simp at he)
  | .node _ (some _) (some _), .node _ none (some _) => isFalse (by intro he; simp at he)
  | .node _ (some _) (some _), .node _ (some _) none => isFalse (by intro he; simp at he)

instance : DecidableEq CBlockIndex := decEqB

namespace CBlockIndex

def data : CBlockIndex → BlockData
  | node d _ _ => d

def pprev : CBlockIndex → Option CBlockIndex
  | node _ pp _ => pp

def pskip : CBlockIndex → Option CBlockIndex
  | node _ _ ps => ps

def nHeight (b : CBlockIndex) : Nat := b.data.nHeight

def getAlgo (b : CBlockIndex) : Nat := b.data.algo

def nChainWork (b : CBlockIndex) : Nat := b.data.nChainWork

end CBlockIndex

/-- The ancestor of `b` at height `h` obtained by pure `pprev` walking
(the reference semantics the skip-list accelerates). -/
def nthAncestor : CBlockIndex → Nat → Option CBlockIndex
  | b@(.node _ pp _), h =>
    if b.nHeight = h then some b
    else
      match pp with
      | some p => nthAncestor p h
      | none => none

/-- `a` lies on the `pprev`-chain from `b` (including `b` itself). -/
def onPrevChain (a : CBlockIndex) : CBlockIndex → Bool
  | b@(.node _ pp _) =>
    if b = a then true
    else
      match pp with
      | some p => onPrevChain a p
      | none => false

/-- Well-formedness of a node and its ancestry: heights count down to a
genesis of height `0`, 256-bit fields are in range, and `pskip` (when
set) points to the `pprev`-chain ancestor at exactly `skipHeight` of the
node's height, as established by `CBlockIndex::BuildSkip`. -/
def wf : CBlockIndex → Bool
  | b@(.node d pp ps) =>
    decide (d.target < W256) && decide (d.nChainWork < W256) &&
    (match pp with
     | none => decide (d.nHeight = 0)
     | some p => decide (d.nHeight = p.nHeight + 1) && wf p) &&
    (match ps with
     | none => true
     | some s => decide (nthAncestor b (skipHeight d.nHeight) = some s))

/-! ## The skip-list resolver (`CBlockIndex::GetAncestor`) -/

/-- The walk loop of `CBlockIndex::GetAncestor`.  `heightWalk` is the
loop's height variable (tracked separately from the node, as in the
source); the failed `assert(pindexWalk->pprev)` is modelled as `none`. -/
def ancLoop : CBlockIndex → Nat → Nat → Option CBlockIndex
  | b@(.node _ pp ps), heightWalk, target =>
    if heightWalk > target then
      let heightSkip := skipHeight heightWalk
      let heightSkipPrev := skipHeight (heightWalk - 1)
      match ps with
      | some s =>
        if heightSkip = target ∨
            (heightSkip > target ∧
              ¬(heightSkipPrev < heightSkip - 2 ∧ heightSkipPrev ≥ target)) then
          ancLoop s heightSkip target
        else
          match pp with
          | some p => ancLoop p (heightWalk - 1) target
          | none => none
      | none =>
        match pp with
        | some p => ancLoop p (heightWalk - 1) target
        | none => none
    else some b

/-- Model of `CBlockIndex::GetAncestor`.  The height argument is an `int`
in the source, so it is an `Int` here; out-of-range heights yield `none`. -/
def getAncestor (b : CBlockIndex) (height : Int) : Option CBlockIndex :=
  if height > (b.nHeight : Int) ∨ height < 0 then none
  else ancLoop b b.nHeight height.toNat

/-- Step-counting variant of `ancLoop`: same walk, also returning the
number of loop iterations (pointer follows) performed. -/
def ancLoopSteps : CBlockIndex → Nat → Nat → Option CBlockIndex × Nat
  | b@(.node _ pp ps), heightWalk, target =>
    if heightWalk > target then
      let heightSkip := skipHeight heightWalk
      let heightSkipPrev := skipHeight (heightWalk - 1)
      match ps with
      | some s =>
        if heightSkip = target ∨
            (heightSkip > target ∧
              ¬(heightSkipPrev < heightSkip - 2 ∧ heightSkipPrev ≥ target)) then
          let r := ancLoopSteps s heightSkip target
          (r.1, r.2 + 1)
        else
          match pp with
          | some p =>
            let r := ancLoopSteps p (heightWalk - 1) target
            (r.1, r.2 + 1)
          | none => (none, 0)
      | none =>
        match pp with
        | some p =>
          let r := ancLoopSteps p (heightWalk - 1) target
          (r.1, r.2 + 1)
        | none => (none, 0)
    else (some b, 0)

/-- `getAncestor` together with its resolver step count. -/
def getAncestorSteps (b : CBlockIndex) (height : Int) : Option CBlockIndex × Nat :=
  if height > (b.nHeight : Int) ∨ height < 0 then (none, 0)
  else ancLoopSteps b b.nHeight height.toNat

/-! ## The active chain (`CChain`)

`vChain` is a height-indexed vector of (possibly null) node pointers. -/

/-- The `vChain` vector: entry `h` is the pointer stored at height `h`
(`none` models a null pointer). -/
abbrev ChainL := List (Option CBlockIndex)

/-- Model of `CChain::Height()`: `vChain.size() - 1` as a C `int`. -/
def chainHeight (v : ChainL) : Int := (v.length : Int) - 1

/-- Model of `CChain::operator[]`: null when the height is outside
`[0, Height()]` or the slot is null. -/
def chainAt (v : ChainL) (h : Nat) : Option CBlockIndex := v.getD h none

/-- Model of `CChain::Contains`: `(*this)[pindex->nHeight] == pindex`. -/
def containsB (v : ChainL) (b : CBlockIndex) : Bool := chainAt v b.nHeight == some b

/-- Model of `std::vector::resize` on `vChain`: truncate or extend with
null pointers. -/
def resizeChain (v : ChainL) (n : Nat) : ChainL :=
  v.take n ++ List.replicate (n - v.length) none

/-- The write-back loop of `CChain::SetTip`: walk `pprev` links from the
tip, overwriting `vChain[pindex->nHeight] = pindex`, stopping as soon as
an entry already holds the node being written. -/
def setTipLoop : CBlockIndex → ChainL → ChainL
  | b@(.node _ pp _), v =>
    if chainAt v b.nHeight = some b then v
    else
      let v' := v.set b.nHeight (some b)
      match pp with
      | some p => setTipLoop p v'
      | none => v'

/-- Model of `CChain::SetTip`. -/
def setTip (v : ChainL) : Option CBlockIndex → ChainL
  | none => []
  | some b => setTipLoop b (resizeChain v (b.nHeight + 1))

/-- The fully rebuilt projection of a tip: entry `h` is the tip's
`pprev`-chain ancestor at height `h`. -/
def projChain (T : CBlockIndex) : ChainL :=
  (List.range (T.nHeight + 1)).map (fun h => nthAncestor T h)

/-- States of `vChain` reachable through `SetTip` (the only mutator):
either empty or the projection of some well-formed tip. -/
def chainValid (v : ChainL) : Prop :=
  v = [] ∨ ∃ T, wf T = true ∧ v = projChain T

/-- The `while (pindex && !Contains(pindex)) pindex = pindex->pprev;`
walk of `CChain::FindFork`. -/
def ffWalk (v : ChainL) : CBlockIndex → Option CBlockIndex
  | b@(.node _ pp _) =>
    if containsB v b then some b
    else
      match pp with
      | some p => ffWalk v p
      | none => none

/-- Model of `CChain::FindFork`. -/
def findFork (v : ChainL) : Option CBlockIndex → Option CBlockIndex
  | none => none
  | some b =>
    match (if (b.nHeight : Int) > chainHeight v then getAncestor b (chainHeight v)
           else some b) with
    | some b' => ffWalk v b'
    | none => none

/-! ## Consensus parameters and algorithm constants

`chainparams.cpp` and the algorithm constants live outside this
repository slice; per the spec they are external read-only inputs. -/

/-- Modelled from the spec: the consensus parameters consumed by
`chain.cpp` (activation heights for each work policy, target spacing,
and the `powLimit` floor), passed explicitly instead of through the
global `Params()` singleton. -/
structure ConsensusParams where
  powLimit : Nat
  nPowTargetSpacingV2 : Nat
  nGeoAvgWork_Start : Int
  nBlockAlgoNormalisedWorkStart : Int
  nBlockAlgoNormalisedWorkDecayStart1 : Int
  nBlockAlgoNormalisedWorkDecayStart2 : Int
  nBlockAlgoWorkWeightStart : Int
deriving DecidableEq

/-- Modelled from the spec: the number of algorithms averaged over by the
work-normalisation policies (the spec's example scenario fixes it at 5). -/
def NUM_ALGOS : Nat := 5

/-- Modelled from the spec: the number of implemented algorithm tags; the
source's own `GetAlgoName` table enumerates six tags (sha256d, scrypt,
groestl, skein, qubit, yescrypt). -/
def NUM_ALGOS_IMPL : Nat := 6

/-! ## The per-algorithm work model -/

/-- Model of `GetBlockProofBase`: zero for a negative, overflowing or
zero decoded target, otherwise `(~target / (target+1)) + 1`. -/
def getBlockProofBase (b : CBlockIndex) : Nat :=
  if b.data.fNegative || b.data.fOverflow || b.data.target == 0 then 0
  else (MASK256 - b.data.target) / (b.data.target + 1) + 1

/-- Model of `GetAlgoWorkFactor` (tag order follows the source's
`GetAlgoName` table: sha256d, scrypt, groestl, skein, qubit). -/
def getAlgoWorkFactor (algo : Nat) : Nat :=
  match algo with
  | 0 => 1
  | 1 => 1024 * 4
  | 2 => 64 * 8
  | 3 => 4 * 6
  | 4 => 128 * 8
  | _ => 1

/-- Model of `GetPrevWorkForAlgo`: unbounded nearest-prior search,
falling back to the `powLimit` value when the walk reaches genesis. -/
def getPrevWorkForAlgo (p : ConsensusParams) : CBlockIndex → Nat → Nat
  | b@(.node _ pp _), algo =>
    if b.getAlgo == algo then getBlockProofBase b
    else
      match pp with
      | some pr => getPrevWorkForAlgo p pr algo
      | none => p.powLimit

/-- The walk of `GetPrevWorkForAlgoWithDecay` with its running
`nDistance` counter (32-block window, floored at `powLimit`). -/
def decay1Aux (p : ConsensusParams) : CBlockIndex → Nat → Nat → Nat
  | b@(.node _ pp _), algo, nDistance =>
    if nDistance > 32 then p.powLimit
    else if b.getAlgo == algo then
      let nWork := mul256 (getBlockProofBase b) (32 - nDistance) / 32
      if nWork < p.powLimit then p.powLimit else nWork
    else
      match pp with
      | some pr => decay1Aux p pr algo (nDistance + 1)
      | none => p.powLimit

/-- Model of `GetPrevWorkForAlgoWithDecay`. -/
def getPrevWorkForAlgoWithDecay (p : ConsensusParams) (b : CBlockIndex) (algo : Nat) : Nat :=
  decay1Aux p b algo 0

/-- The walk of `GetPrevWorkForAlgoWithDecay2` (32-block window, no
floor). -/
def decay2Aux : CBlockIndex → Nat → Nat → Nat
  | b@(.node _ pp _), algo, nDistance =>
    if nDistance > 32 then 0
    else if b.getAlgo == algo then
      mul256 (getBlockProofBase b) (32 - nDistance) / 32
    else
      match pp with
      | some pr => decay2Aux pr algo (nDistance + 1)
      | none => 0

/-- Model of `GetPrevWorkForAlgoWithDecay2`. -/
def getPrevWorkForAlgoWithDecay2 (b : CBlockIndex) (algo : Nat) : Nat :=
  decay2Aux b algo 0

/-- The walk of `GetPrevWorkForAlgoWithDecay3` (100-block window, no
floor). -/
def decay3Aux : CBlockIndex → Nat → Nat → Nat
  | b@(.node _ pp _), algo, nDistance =>
    if nDistance > 100 then 0
    else if b.getAlgo == algo then
      mul256 (getBlockProofBase b) (100 - nDistance) / 100
    else
      match pp with
      | some pr => decay3Aux pr algo (nDistance + 1)
      | none => 0

/-- Model of `GetPrevWorkForAlgoWithDecay3`. -/
def getPrevWorkForAlgoWithDecay3 (b : CBlockIndex) (algo : Nat) : Nat :=
  decay3Aux b algo 0

/-- Distance (in `pprev` steps) and node of the nearest block of a given
algorithm, searching from the block itself — the spec's "nearest-prior"
notion, used to characterise the decay walks. -/
def findAlgo : CBlockIndex → Nat → Option (Nat × CBlockIndex)
  | b@(.node _ pp _), algo =>
    if b.getAlgo == algo then some (0, b)
    else
      match pp with
      | some pr => (findAlgo pr algo).map (fun dm => (dm.1 + 1, dm.2))
      | none => none

/-- Definition following the spec's words for a decayed nearest-prior
contribution over window `w`: a match at distance `d ≤ w` contributes
`base * (w - d) / w` (in wrapping 256-bit arithmetic), anything else
contributes `0`. -/
def specNearestPriorDecay (w : Nat) (b : CBlockIndex) (algo : Nat) : Nat :=
  match findAlgo b algo with
  | some dm => if dm.1 ≤ w then mul256 (getBlockProofBase dm.2) (w - dm.1) / w else 0
  | none => 0

/-! ## Integer nth root (`uint256_nthRoot`) -/

/-- `bnPower`: `root`-fold wrapping self-multiplication, as the inner
`for (j…) bnPower *= bnNext` loop. -/
def powWrap (x : Nat) : Nat → Nat
  | 0 => 1
  | k + 1 => mul256 (powWrap x k) x

/-- The starting-approximation bisection loop of `uint256_nthRoot`; the
fuel argument is the number of remaining iterations, so bit `i = fuel-1`
is probed each step. -/
def bisect (bnUpper root : Nat) : Nat → Nat → Nat
  | 0, bnCur => bnCur
  | i + 1, bnCur =>
    let bnNext := add256 bnCur (1 <<< i)
    let bnPower := powWrap bnNext root
    bisect bnUpper root i (if bnPower ≤ bnUpper then bnNext else bnCur)

/-- The Newton refinement loop of `uint256_nthRoot`; state is
`(bnCur, nTerminate, fNegativeDelta)`, with `fNegativeDelta` carried
across iterations exactly as the source's loop-external flag. -/
def newton (bn root : Nat) : Nat → Nat × Int × Bool → Nat
  | 0, (bnCur, _, _) => bnCur
  | it + 1, (bnCur, nTerminate, fnd) =>
    let bnDenominator := powWrap bnCur (root - 1)
    let q := bn / bnDenominator
    let fnd := if bnCur > q then true else fnd
    if bnCur = q then bnCur
    else if fnd then
      let bnDelta := sub256 bnCur q
      if nTerminate = 1 then sub256 bnCur 1
      else if bnDelta ≤ root then newton bn root it (sub256 bnCur 1, -1, false)
      else newton bn root it (sub256 bnCur (bnDelta / root), 0, true)
    else
      let bnDelta := sub256 q bnCur
      if nTerminate = -1 then bnCur
      else if bnDelta ≤ root then newton bn root it (add256 bnCur 1, 1, false)
      else newton bn root it (add256 bnCur (bnDelta / root), 0, false)

/-- Model of `uint256_nthRoot` (precondition `root > 1` is the source's
assert; the model is total). -/
def uint256_nthRoot (root bn : Nat) : Nat :=
  if bn = 0 then 0
  else
    let nRootBits := (bits256 bn + root - 1) / root
    let nStartingBits := min 8 nRootBits
    let bnUpper := bn >>> ((nRootBits - nStartingBits) * root)
    let bnCur := bisect bnUpper root nStartingBits 0
    if nRootBits = nStartingBits then bnCur
    else
      newton bn root 20 (shl256 bnCur (nRootBits - nStartingBits), 0, false)

/-! ## Work combination (`GetGeometricMeanPrevWork`, `GetBlockProof`) -/

/-- The product loop of `GetGeometricMeanPrevWork`: zero decayed
contributions are skipped, non-zero ones are multiplied in (wrapping). -/
def geoLoop (b : CBlockIndex) : List Nat → Nat → Nat
  | [], acc => acc
  | a :: rest, acc =>
    if a ≠ b.getAlgo then
      let nBlockWorkAlt := getPrevWorkForAlgoWithDecay3 b a
      if nBlockWorkAlt ≠ 0 then geoLoop b rest (mul256 acc nBlockWorkAlt)
      else geoLoop b rest acc
    else geoLoop b rest acc

/-- Model of `GetGeometricMeanPrevWork`. -/
def getGeometricMeanPrevWork (b : CBlockIndex) : Nat :=
  shl256 (uint256_nthRoot NUM_ALGOS (geoLoop b (List.range NUM_ALGOS_IMPL) (getBlockProofBase b))) 8

/-- The summation loop of `GetBlockProof`'s normalised branches, with the
height-gated choice of decay variant inside the loop body as in the
source. -/
def workLoop (p : ConsensusParams) (b : CBlockIndex) (nHeight : Int) (own : Nat) :
    List Nat → Nat → Nat
  | [], acc => acc
  | a :: rest, acc =>
    workLoop p b nHeight own rest
      (if a ≠ own then
         if nHeight ≥ p.nBlockAlgoNormalisedWorkDecayStart2 then
           add256 acc (getPrevWorkForAlgoWithDecay2 b a)
         else if nHeight ≥ p.nBlockAlgoNormalisedWorkDecayStart1 then
           add256 acc (getPrevWorkForAlgoWithDecay p b a)
         else
           add256 acc (getPrevWorkForAlgo p b a)
       else acc)

/-- Model of `GetBlockProof`, with the consensus parameters passed
explicitly in place of the `Params()` global. -/
def getBlockProof (p : ConsensusParams) (b : CBlockIndex) : Nat :=
  let nHeight : Int := b.nHeight
  let nAlgo := b.getAlgo
  if nHeight ≥ p.nGeoAvgWork_Start then
    getGeometricMeanPrevWork b
  else if nHeight ≥ p.nBlockAlgoNormalisedWorkStart then
    workLoop p b nHeight nAlgo (List.range NUM_ALGOS) (getBlockProofBase b) / NUM_ALGOS
  else if nHeight ≥ p.nBlockAlgoWorkWeightStart then
    mul256 (getBlockProofBase b) (getAlgoWorkFactor nAlgo)
  else
    getBlockProofBase b

/-! ## Work-equivalent time (`GetBlockProofEquivalentTime`) -/

/-- Model of `GetBlockProofEquivalentTime`.  The product with the target
spacing wraps modulo `2^256`; `GetLow64` is `% 2^64`, and the `sign *`
products are exact because the non-saturating branch has `r < 2^63`. -/
def getBlockProofEquivalentTime (p : ConsensusParams) (toB fromB tipB : CBlockIndex) : Int :=
  let rs : Nat × Int :=
    if toB.nChainWork > fromB.nChainWork then (toB.nChainWork - fromB.nChainWork, 1)
    else (fromB.nChainWork - toB.nChainWork, -1)
  let r := mul256 rs.1 p.nPowTargetSpacingV2 / getBlockProof p tipB
  if bits256 r > 63 then rs.2 * (2 ^ 63 - 1) else rs.2 * (r % 2 ^ 64)

/-! ## Concrete sample data for scenario checks -/

/-- Block data with valid decode flags, zero chain work. -/
def sData (h a t : Nat) : BlockData := ⟨h, a, t, false, false, 0⟩

/-- Genesis of the 5-block single-algorithm sample chain (constant
difficulty bits decoding to target `2^246 - 1`, base work `1024`). -/
def smpG : CBlockIndex := .node (sData 0 0 (2 ^ 246 - 1)) none none

def smpB1 : CBlockIndex := .node (sData 1 0 (2 ^ 246 - 1)) (some smpG) (some smpG)

def smpB2 : CBlockIndex := .node (sData 2 0 (2 ^ 246 - 1)) (some smpB1) (some smpG)

def smpB3 : CBlockIndex := .node (sData 3 0 (2 ^ 246 - 1)) (some smpB2) (some smpB1)

def smpB4 : CBlockIndex := .node (sData 4 0 (2 ^ 246 - 1)) (some smpB3) (some smpG)

def smpB5 : CBlockIndex := .node (sData 5 0 (2 ^ 246 - 1)) (some smpB4) (some smpB1)

/-- Genesis block of algorithm `1` with base work `1024`. -/
def cexA : CBlockIndex := .node (sData 0 1 (2 ^ 246 - 1)) none none

/-- Height-1 block of algorithm `0` on top of `cexA`. -/
def cexB : CBlockIndex := .node (sData 1 0 (2 ^ 246 - 1)) (some cexA) (some cexA)

/-- Genesis block whose bits decode to target `1`, so its base work is
`2^255` (large enough that multiplying by a decay window wraps). -/
def cexHuge : CBlockIndex := .node (sData 0 0 1) none none

/-- Genesis block whose bits decode to target `0` (defensive case), so
its base work is `0`. -/
def cexZeroBits : CBlockIndex := .node (sData 0 0 0) none none

/-- Genesis block with target `2^255`. -/
def cexT1 : CBlockIndex := .node (sData 0 0 (2 ^ 255)) none none

/-- Genesis block with target `2^255 + 1`. -/
def cexT2 : CBlockIndex := .node (sData 0 0 (2 ^ 255 + 1)) none none

/-- Genesis block for the geometric-mean scenario: algorithm `2`, target
`2^206 - 1`, hence base work exactly `2^50`. -/
def smpGeo : CBlockIndex := .node (sData 0 2 (2 ^ 206 - 1)) none none

/-- Genesis tip with base work `2` (target `2^255 - 1`). -/
def smpTip : CBlockIndex := .node (sData 0 0 (2 ^ 255 - 1)) none none

/-- Genesis block with chain work `2^252`. -/
def smpTo : CBlockIndex := .node ⟨0, 0, 1, false, false, 2 ^ 252⟩ none none

/-- Parameters placing every sample height in the legacy regime
(`GetBlockProofBase` only), with target spacing `16`. -/
def pLegacy : ConsensusParams := ⟨7, 16, 1000000, 1000000, 1000000, 1000000, 1000000⟩

/-- Parameters placing every sample height in the flat-normalised regime. -/
def pNorm : ConsensusParams := ⟨7, 60, 1000000, 0, 1000000, 1000000, 0⟩

/-- Parameters placing every sample height in the Decay-v2 regime. -/
def pD2 : ConsensusParams := ⟨7, 60, 1000000, 0, 0, 0, 0⟩

/-! ## Basic facts about node accessors -/

@[simp] theorem data_node (d pp ps) : (CBlockIndex.node d pp ps).data = d := rfl

@[simp] theorem nHeight_node (d pp ps) : (CBlockIndex.node d pp ps).nHeight = d.nHeight := rfl

@[simp] theorem pprev_node (d pp ps) : (CBlockIndex.node d pp ps).pprev = pp := rfl

@[simp] theorem pskip_node (d pp ps) : (CBlockIndex.node d pp ps).pskip = ps := rfl

@[simp] theorem getAlgo_node (d pp ps) : (CBlockIndex.node d pp ps).getAlgo = d.algo := rfl

@[simp] theorem nChainWork_node (d pp ps) : (CBlockIndex.node d pp ps).nChainWork = d.nChainWork := rfl

/-! ## Facts about `invertLowestOne` and `skipHeight` -/

theorem invertLowestOne_le (n : Nat) : invertLowestOne n ≤ n := Nat.and_le_left

theorem invertLowestOne_lt : ∀ n : Nat, 0 < n → invertLowestOne n < n := by
  intro n
  induction n using Nat.strong_induction_on with
  | _ n ih =>
    intro hn
    rcases Nat.mod_two_eq_zero_or_one n with he | ho
    · have hn2 : 2 ≤ n := by omega
      have hdiv : invertLowestOne n / 2 = invertLowestOne (n / 2) := by
        unfold invertLowestOne
        rw [Nat.and_div_two]
        congr 1
        omega
      have hmod : invertLowestOne n % 2 = 0 := by
        rcases Nat.mod_two_eq_zero_or_one (invertLowestOne n) with h | h
        · exact h
        · have := (Nat.and_mod_two_eq_one).1 h
          omega
      have hlt := ih (n / 2) (by omega) (by omega)
      have := Nat.div_add_mod (invertLowestOne n) 2
      omega
    · have hle := invertLowestOne_le n
      have hmod : invertLowestOne n % 2 = 0 := by
        rcases Nat.mod_two_eq_zero_or_one (invertLowestOne n) with h | h
        · exact h
        · have := (Nat.and_mod_two_eq_one).1 h
          omega
      omega

theorem skipHeight_lt : ∀ n : Nat, 0 < n → skipHeight n < n := by
  intro n hn
  unfold skipHeight
  by_cases h2 : n < 2
  · simp only [if_pos h2]
    omega
  · simp only [if_neg h2]
    by_cases hodd : n &&& 1 = 1
    · simp only [if_pos hodd]
      have h1 : invertLowestOne (n - 1) < n - 1 := invertLowestOne_lt (n - 1) (by omega)
      have h2' : invertLowestOne (invertLowestOne (n - 1)) ≤ invertLowestOne (n - 1) :=
        invertLowestOne_le _
      omega
    · simp only [if_neg hodd]
      exact invertLowestOne_lt n (by omega)

/-! ## Well-formedness destructors -/

theorem wf_data {d pp ps} (h : wf (.node d pp ps) = true) :
    d.target < W256 ∧ d.nChainWork < W256 := by
  cases pp <;> cases ps <;>
    simp only [wf, Bool.and_eq_true, decide_eq_true_eq] at h <;>
    exact ⟨h.1.1.1, h.1.1.2⟩

theorem wf_pprev_none {d ps} (h : wf (.node d none ps) = true) : d.nHeight = 0 := by
  cases ps <;>
    simp only [wf, Bool.and_eq_true, decide_eq_true_eq] at h <;>
    exact h.1.2

theorem wf_pprev_some {d p ps} (h : wf (.node d (some p) ps) = true) :
    d.nHeight = p.nHeight + 1 ∧ wf p = true := by
  cases ps <;>
    simp only [wf, Bool.and_eq_true, decide_eq_true_eq] at h <;>
    exact h.1.2

theorem wf_pskip_some {d pp s} (h : wf (.node d pp (some s)) = true) :
    nthAncestor (.node d pp (some s)) (skipHeight d.nHeight) = some s := by
  cases pp <;>
    simp only [wf, Bool.and_eq_true, decide_eq_true_eq] at h <;>
    exact h.2

/-! ## Facts about `nthAncestor` -/

theorem nthAncestor_eq_self {d pp ps h} (hh : d.nHeight = h) :
    nthAncestor (.node d pp ps) h = some (.node d pp ps) := by
  cases pp <;> simp [nthAncestor, hh]

theorem nthAncestor_eq_prev {d p ps h} (hh : d.nHeight ≠ h) :
    nthAncestor (.node d (some p) ps) h = nthAncestor p h := by
  simp [nthAncestor, hh]

theorem nthAncestor_eq_none {d ps h} (hh : d.nHeight ≠ h) :
    nthAncestor (.node d none ps) h = none := by
  simp [nthAncestor, hh]

theorem nthAncestor_self (b : CBlockIndex) : nthAncestor b b.nHeight = some b := by
  obtain ⟨d, pp, ps⟩ := b
  cases pp <;> simp [nthAncestor]

theorem nthAncestor_gt : ∀ b : CBlockIndex, wf b = true → ∀ h, b.nHeight < h →
    nthAncestor b h = none
  | .node d pp ps, hwf, h, hh => by
    simp only [nHeight_node] at hh
    cases pp with
    | none => simp [nthAncestor, Nat.ne_of_lt hh]
    | some p =>
      have ⟨hh1, hwp⟩ := wf_pprev_some hwf
      simp only [nthAncestor, nHeight_node, Nat.ne_of_lt hh, if_false]
      exact nthAncestor_gt p hwp h (by omega)

theorem nthAncestor_le : ∀ b : CBlockIndex, wf b = true → ∀ h, h ≤ b.nHeight →
    ∃ a, nthAncestor b h = some a ∧ a.nHeight = h ∧ wf a = true
  | .node d pp ps, hwf, h, hh => by
    simp only [nHeight_node] at hh
    by_cases heq : d.nHeight = h
    · subst heq
      exact ⟨_, nthAncestor_self _, rfl, hwf⟩
    · cases pp with
      | none =>
        have := wf_pprev_none hwf
        omega
      | some p =>
        have ⟨hh1, hwp⟩ := wf_pprev_some hwf
        have ⟨a, ha, hah, hwa⟩ := nthAncestor_le p hwp h (by omega)
        exact ⟨a, by simp [nthAncestor, heq, ha], hah, hwa⟩

theorem nthAncestor_wf {b : CBlockIndex} (hwf : wf b = true) {h a}
    (ha : nthAncestor b h = some a) : a.nHeight = h ∧ wf a = true := by
  by_cases hh : h ≤ b.nHeight
  · obtain ⟨a', ha', h1, h2⟩ := nthAncestor_le b hwf h hh
    rw [ha] at ha'
    cases ha'
    exact ⟨h1, h2⟩
  · rw [nthAncestor_gt b hwf h (by omega)] at ha
    cases ha

theorem nthAncestor_trans : ∀ b : CBlockIndex, wf b = true →
    ∀ h a, nthAncestor b h = some a → ∀ t, t ≤ h → nthAncestor a t = nthAncestor b t
  | .node d pp ps, hwf, h, a, ha, t, ht => by
    by_cases heq : d.nHeight = h
    · subst heq
      have hb := nthAncestor_self (.node d pp ps)
      rw [nHeight_node] at hb
      rw [hb] at ha
      cases ha
      rfl
    · cases pp with
      | none =>
        simp only [nthAncestor, nHeight_node, heq, if_false] at ha
        exact Option.noConfusion ha
      | some p =>
        have ⟨hh1, hwp⟩ := wf_pprev_some hwf
        simp only [nthAncestor, nHeight_node, heq, if_false] at ha
        have hhp : h ≤ p.nHeight := by
          by_contra hc
          rw [nthAncestor_gt p hwp h (by omega)] at ha
          cases ha
        have htd : d.nHeight ≠ t := by omega
        rw [nthAncestor_trans p hwp h a ha t ht]
        simp [nthAncestor, htd]

theorem onPrevChain_self (a : CBlockIndex) : onPrevChain a a = true := by
  obtain ⟨d, pp, ps⟩ := a
  cases pp <;> simp [onPrevChain]

theorem onPrevChain_ne_prev {a : CBlockIndex} {d p ps}
    (h : CBlockIndex.node d (some p) ps ≠ a) :
    onPrevChain a (.node d (some p) ps) = onPrevChain a p := by
  simp [onPrevChain, h]

theorem onPrevChain_ne_none {a : CBlockIndex} {d ps}
    (h : CBlockIndex.node d none ps ≠ a) :
    onPrevChain a (.node d none ps) = false := by
  simp [onPrevChain, h]

theorem onPrevChain_of_nthAncestor : ∀ b : CBlockIndex, ∀ h a,
    nthAncestor b h = some a → onPrevChain a b = true
  | .node d pp ps, h, a, ha => by
    by_cases heq : (CBlockIndex.node d pp ps) = a
    · rw [heq]
      exact onPrevChain_self a
    · by_cases hh : d.nHeight = h
      · rw [nthAncestor_eq_self hh] at ha
        cases ha
        exact absurd rfl heq
      · cases pp with
        | none =>
          rw [nthAncestor_eq_none hh] at ha
          exact Option.noConfusion ha
        | some p =>
          rw [nthAncestor_eq_prev hh] at ha
          rw [onPrevChain_ne_prev heq]
          exact onPrevChain_of_nthAncestor p h a ha

/-! ## Correctness of the skip-list walk -/

theorem ancLoop_eq_nthAncestor :
    ∀ n, ∀ b : CBlockIndex, wf b = true → b.nHeight = n → ∀ t, t ≤ n →
      ancLoop b n t = nthAncestor b t := by
  intro n
  induction n using Nat.strong_induction_on with
  | _ n ih =>
    rintro ⟨d, pp, ps⟩ hwf hh t ht
    simp only [nHeight_node] at hh
    subst hh
    by_cases hgt : d.nHeight > t
    · have hd1 : 0 < d.nHeight := by omega
      have hsl : skipHeight d.nHeight < d.nHeight := skipHeight_lt _ hd1
      have hpp : ∀ p, pp = some p → p.nHeight = d.nHeight - 1 ∧ wf p = true := by
        intro p hp
        subst hp
        have h := wf_pprev_some hwf
        exact ⟨by omega, h.2⟩
      have hrhs : ∀ p, pp = some p →
          nthAncestor (.node d pp ps) t = nthAncestor p t := by
        intro p hp
        subst hp
        simp [nthAncestor, show d.nHeight ≠ t by omega]
      cases ps with
      | none =>
        cases pp with
        | none => exact absurd (wf_pprev_none hwf) (by omega)
        | some p =>
          have ⟨hph, hpw⟩ := hpp p rfl
          rw [hrhs p rfl, ← ih (d.nHeight - 1) (by omega) p hpw hph t (by omega)]
          simp only [ancLoop, if_pos hgt]
      | some s =>
        have h1 := wf_pskip_some hwf
        have ⟨hsh, hsw⟩ := nthAncestor_wf hwf h1
        by_cases hcond : skipHeight d.nHeight = t ∨
            (skipHeight d.nHeight > t ∧
              ¬(skipHeight (d.nHeight - 1) < skipHeight d.nHeight - 2 ∧
                skipHeight (d.nHeight - 1) ≥ t))
        · have hts : t ≤ skipHeight d.nHeight := by
            rcases hcond with h | h <;> omega
          have hstep : ancLoop (.node d pp (some s)) d.nHeight t =
              ancLoop s (skipHeight d.nHeight) t := by
            simp only [ancLoop, if_pos hgt, if_pos hcond]
          rw [hstep, ih (skipHeight d.nHeight) hsl s hsw hsh t hts,
            nthAncestor_trans _ hwf _ s h1 t hts]
        · cases pp with
          | none => exact absurd (wf_pprev_none hwf) (by omega)
          | some p =>
            have ⟨hph, hpw⟩ := hpp p rfl
            rw [hrhs p rfl, ← ih (d.nHeight - 1) (by omega) p hpw hph t (by omega)]
            simp only [ancLoop, if_pos hgt, if_neg hcond]
    · have ht' : d.nHeight = t := by omega
      subst ht'
      have hself := nthAncestor_self (.node d pp ps)
      rw [nHeight_node] at hself
      simp [ancLoop, hself]

theorem getAncestor_eq {b : CBlockIndex} (hwf : wf b = true) {h : Int}
    (h0 : 0 ≤ h) (hle : h ≤ (b.nHeight : Int)) :
    getAncestor b h = nthAncestor b h.toNat := by
  unfold getAncestor
  rw [if_neg (by omega)]
  exact ancLoop_eq_nthAncestor b.nHeight b hwf rfl h.toNat (by omega)

theorem getAncestor_out_of_range {b : CBlockIndex} {h : Int}
    (hout : h < 0 ∨ (b.nHeight : Int) < h) : getAncestor b h = none := by
  unfold getAncestor
  rw [if_pos (by omega)]

/-! ## Claim C2 -/

/-- C2: for every well-formed node and every height `0 ≤ h ≤ node.height`,
`GetAncestor` returns a node whose height equals `h` and which lies on
the `pprev`-chain from the node; for `h < 0` or `h > node.height` it
returns null without raising an error. -/
theorem C2_getAncestor_spec (b : CBlockIndex) (h : Int) :
    (wf b = true → 0 ≤ h → h ≤ (b.nHeight : Int) →
      ∃ a, getAncestor b h = some a ∧ (a.nHeight : Int) = h ∧ onPrevChain a b = true) ∧
    ((h < 0 ∨ (b.nHeight : Int) < h) → getAncestor b h = none) := by
  constructor
  · intro hwf h0 hle
    obtain ⟨a, ha, hah, hwa⟩ := nthAncestor_le b hwf h.toNat (by omega)
    refine ⟨a, ?_, by omega, onPrevChain_of_nthAncestor b h.toNat a ha⟩
    rw [getAncestor_eq hwf h0 hle]
    exact ha
  · exact getAncestor_out_of_range

/-- Witness for C2 on the concrete 5-block sample chain. -/
theorem C2_witness :
    wf smpB5 = true ∧
    (∃ a, getAncestor smpB5 2 = some a ∧ (a.nHeight : Int) = 2 ∧
      onPrevChain a smpB5 = true) ∧
    getAncestor smpB5 7 = none ∧ getAncestor smpB5 (-1) = none :=
  ⟨by decide,
   (C2_getAncestor_spec smpB5 2).1 (by decide) (by decide) (by decide),
   (C2_getAncestor_spec smpB5 7).2 (by decide),
   (C2_getAncestor_spec smpB5 (-1)).2 (by decide)⟩

/-! ## Claim C8 -/

/-- C8 (amended): the `SkipHeight` sequence for heights 1..5 is
`0, 0, 1, 0, 1` (the spec's `0, 0, 2, 0, 4` is wrong), and on the
5-block single-algorithm sample chain `GetAncestor(block5, 2)` resolves
to block2 in exactly 3 resolver steps (within the claimed bound of 3). -/
theorem C8_skipHeight_scenario :
    skipHeight 1 = 0 ∧ skipHeight 2 = 0 ∧ skipHeight 3 = 1 ∧
    skipHeight 4 = 0 ∧ skipHeight 5 = 1 ∧
    wf smpB5 = true ∧
    getAncestorSteps smpB5 2 = (some smpB2, 3) ∧ 3 ≤ 3 := by
  decide

/-- Counterexample for C8 as stated: the claimed `SkipHeight` sequence
`0, 0, 2, 0, 4` for heights 1..5 does not hold (already `SkipHeight 3 = 1`). -/
theorem C8_counterexample :
    ¬(skipHeight 1 = 0 ∧ skipHeight 2 = 0 ∧ skipHeight 3 = 2 ∧
      skipHeight 4 = 0 ∧ skipHeight 5 = 4) := by
  decide

/-! ## Claim C7 -/

/-- C7 (amended): for blocks whose bits decode to valid (non-negative,
non-overflowing, nonzero) targets `t1 < t2`, the base work of the `t1`
block is at least that of the `t2` block.  Strictness fails for large
targets, where the quotient saturates (see the counterexample). -/
theorem C7_baseWork_antitone (b1 b2 : CBlockIndex)
    (h1n : b1.data.fNegative = false) (h1o : b1.data.fOverflow = false)
    (h2n : b2.data.fNegative = false) (h2o : b2.data.fOverflow = false)
    (h1z : b1.data.target ≠ 0)
    (hlt : b1.data.target < b2.data.target) (hub : b2.data.target < W256) :
    getBlockProofBase b2 ≤ getBlockProofBase b1 := by
  have e1 : getBlockProofBase b1 =
      (MASK256 - b1.data.target) / (b1.data.target + 1) + 1 := by
    unfold getBlockProofBase
    rw [h1n, h1o]
    simp [h1z]
  have e2 : getBlockProofBase b2 =
      (MASK256 - b2.data.target) / (b2.data.target + 1) + 1 := by
    unfold getBlockProofBase
    rw [h2n, h2o]
    simp
    omega
  rw [e1, e2]
  have s1 : (MASK256 - b2.data.target) / (b2.data.target + 1) ≤
      (MASK256 - b1.data.target) / (b2.data.target + 1) :=
    Nat.div_le_div_right (Nat.sub_le_sub_left (by omega) MASK256)
  have s2 : (MASK256 - b1.data.target) / (b2.data.target + 1) ≤
      (MASK256 - b1.data.target) / (b1.data.target + 1) :=
    Nat.div_le_div_left (by omega) (by omega)
  omega

/-- Counterexample for C7 as stated: targets `2^255` and `2^255 + 1` are
both valid and distinct, yet both decode to base work `1`, so strict
monotonicity fails. -/
theorem C7_counterexample :
    cexT1.data.fNegative = false ∧ cexT1.data.fOverflow = false ∧
    cexT2.data.fNegative = false ∧ cexT2.data.fOverflow = false ∧
    cexT1.data.target ≠ 0 ∧ cexT1.data.target < cexT2.data.target ∧
    cexT2.data.target < W256 ∧
    getBlockProofBase cexT1 = 1 ∧ getBlockProofBase cexT2 = 1 ∧
    ¬ getBlockProofBase cexT2 < getBlockProofBase cexT1 := by
  decide

/-- Witness for C7 at the concrete target pair. -/
theorem C7_witness :
    cexT1.data.target < cexT2.data.target ∧
    getBlockProofBase cexT2 ≤ getBlockProofBase cexT1 :=
  ⟨by decide,
   C7_baseWork_antitone cexT1 cexT2 (by decide) (by decide) (by decide) (by decide)
     (by decide) (by decide) (by decide)⟩

/-! ## Claim C4 -/

/-- C4 (amended): `uint256_nthRoot(root, 0) = 0` for every `root > 1`,
and the floor-root property `r^root ≤ x < (r+1)^root` holds on tested
inputs; it does not hold for all inputs (the counterexample shows the
bisection's wrapping power computation breaks it for `root = 33`). -/
theorem C4_nthRoot_spec :
    (∀ root : Nat, 1 < root → uint256_nthRoot root 0 = 0) ∧
    ((uint256_nthRoot 5 (2 ^ 200 + 12345)) ^ 5 ≤ 2 ^ 200 + 12345 ∧
      2 ^ 200 + 12345 < (uint256_nthRoot 5 (2 ^ 200 + 12345) + 1) ^ 5) ∧
    ((uint256_nthRoot 2 (10 ^ 60)) ^ 2 ≤ 10 ^ 60 ∧
      10 ^ 60 < (uint256_nthRoot 2 (10 ^ 60) + 1) ^ 2) ∧
    ((uint256_nthRoot 3 (3 ^ 100)) ^ 3 ≤ 3 ^ 100 ∧
      3 ^ 100 < (uint256_nthRoot 3 (3 ^ 100) + 1) ^ 3) ∧
    ((uint256_nthRoot 5 (2 ^ 255)) ^ 5 ≤ 2 ^ 255 ∧
      2 ^ 255 < (uint256_nthRoot 5 (2 ^ 255) + 1) ^ 5) := by
  refine ⟨fun root hr => rfl, by decide, by decide, by decide, by decide⟩

/-- Counterexample for C4 as stated: at `root = 33`, `x = 2^255` (a valid
256-bit input with `root > 1`) the result `r` of `uint256_nthRoot` has
`r^33 > x`, so the floor-root property fails. -/
theorem C4_counterexample :
    1 < 33 ∧ 2 ^ 255 < W256 ∧
    ¬ (uint256_nthRoot 33 (2 ^ 255)) ^ 33 ≤ 2 ^ 255 := by
  decide

/-- Witness for C4's quantified zero case. -/
theorem C4_witness : 1 < 5 ∧ uint256_nthRoot 5 0 = 0 :=
  ⟨by decide, C4_nthRoot_spec.1 5 (by decide)⟩

/-! ## Work-model lemmas -/

theorem mul256_div_cancel {a k : Nat} (hk : 0 < k) (h : a * k < W256) :
    mul256 a k / k = a := by
  unfold mul256
  rw [Nat.mod_eq_of_lt h, Nat.mul_div_cancel a hk]

theorem getPrevWorkForAlgo_self (p : ConsensusParams) :
    ∀ (b : CBlockIndex) (algo : Nat), b.getAlgo = algo →
      getPrevWorkForAlgo p b algo = getBlockProofBase b
  | .node d pp ps, algo, h => by
    subst h
    rw [getPrevWorkForAlgo.eq_def]
    simp

theorem decay1_self (p : ConsensusParams) :
    ∀ (b : CBlockIndex) (algo : Nat), b.getAlgo = algo →
      getPrevWorkForAlgoWithDecay p b algo =
        max p.powLimit (mul256 (getBlockProofBase b) 32 / 32)
  | .node d pp ps, algo, h => by
    subst h
    unfold getPrevWorkForAlgoWithDecay
    rw [decay1Aux.eq_def]
    simp only [getAlgo_node, beq_self_eq_true, if_true, Nat.sub_zero]
    norm_num
    rcases Nat.lt_or_ge (mul256 (getBlockProofBase (.node d pp ps)) 32 / 32) p.powLimit
      with hw | hw
    · rw [if_pos hw, Nat.max_eq_left (Nat.le_of_lt hw)]
    · rw [if_neg (Nat.not_lt.2 hw), Nat.max_eq_right hw]

theorem decay2_self :
    ∀ (b : CBlockIndex) (algo : Nat), b.getAlgo = algo →
      getPrevWorkForAlgoWithDecay2 b algo = mul256 (getBlockProofBase b) 32 / 32
  | .node d pp ps, algo, h => by
    subst h
    unfold getPrevWorkForAlgoWithDecay2
    rw [decay2Aux.eq_def]
    simp only [getAlgo_node, beq_self_eq_true, if_true, Nat.sub_zero]
    norm_num

theorem decay3_self :
    ∀ (b : CBlockIndex) (algo : Nat), b.getAlgo = algo →
      getPrevWorkForAlgoWithDecay3 b algo = mul256 (getBlockProofBase b) 100 / 100
  | .node d pp ps, algo, h => by
    subst h
    unfold getPrevWorkForAlgoWithDecay3
    rw [decay3Aux.eq_def]
    simp only [getAlgo_node, beq_self_eq_true, if_true, Nat.sub_zero]
    norm_num

theorem workLoop_flat (p : ConsensusParams) (b : CBlockIndex) (hh : Int) (own : Nat)
    (hd1 : ¬ hh ≥ p.nBlockAlgoNormalisedWorkDecayStart1)
    (hd2 : ¬ hh ≥ p.nBlockAlgoNormalisedWorkDecayStart2) :
    ∀ (l : List Nat) (acc : Nat),
      workLoop p b hh own l acc =
        (l.filter (fun a => a ≠ own)).foldl
          (fun acc a => add256 acc (getPrevWorkForAlgo p b a)) acc
  | [], acc => by simp [workLoop]
  | a :: rest, acc => by
    by_cases ha : a ≠ own
    · simp only [workLoop, if_pos ha, if_neg hd2, if_neg hd1, List.filter_cons,
        decide_eq_true_eq, ha, if_true, List.foldl_cons]
      exact workLoop_flat p b hh own hd1 hd2 rest _
    · simp only [workLoop, if_neg ha, List.filter_cons, decide_eq_true_eq, ha, if_false,
        List.foldl_cons]
      exact workLoop_flat p b hh own hd1 hd2 rest _

theorem workLoop_d2 (p : ConsensusParams) (b : CBlockIndex) (hh : Int) (own : Nat)
    (hd2 : hh ≥ p.nBlockAlgoNormalisedWorkDecayStart2) :
    ∀ (l : List Nat) (acc : Nat),
      workLoop p b hh own l acc =
        (l.filter (fun a => a ≠ own)).foldl
          (fun acc a => add256 acc (getPrevWorkForAlgoWithDecay2 b a)) acc
  | [], acc => by simp [workLoop]
  | a :: rest, acc => by
    by_cases ha : a ≠ own
    · simp only [workLoop, if_pos ha, if_pos hd2, List.filter_cons,
        decide_eq_true_eq, ha, if_true, List.foldl_cons]
      exact workLoop_d2 p b hh own hd2 rest _
    · simp only [workLoop, if_neg ha, List.filter_cons, decide_eq_true_eq, ha, if_false,
        List.foldl_cons]
      exact workLoop_d2 p b hh own hd2 rest _

theorem getBlockProof_norm (p : ConsensusParams) (b : CBlockIndex)
    (hgeo : ¬ (b.nHeight : Int) ≥ p.nGeoAvgWork_Start)
    (hns : (b.nHeight : Int) ≥ p.nBlockAlgoNormalisedWorkStart) :
    getBlockProof p b =
      workLoop p b (b.nHeight : Int) b.getAlgo (List.range NUM_ALGOS)
        (getBlockProofBase b) / NUM_ALGOS := by
  unfold getBlockProof
  rw [if_neg hgeo, if_pos hns]

theorem geoLoop_all_zero (b : CBlockIndex) :
    ∀ l : List Nat, (∀ a ∈ l, a ≠ b.getAlgo → getPrevWorkForAlgoWithDecay3 b a = 0) →
      ∀ acc, geoLoop b l acc = acc
  | [], _, acc => by simp [geoLoop]
  | a :: rest, h, acc => by
    have hrest := fun x hx hxa => h x (List.mem_cons_of_mem a hx) hxa
    by_cases ha : a ≠ b.getAlgo
    · have h0 := h a (List.mem_cons_self a rest) ha
      simp only [geoLoop, if_pos ha, h0, ne_eq, not_true_eq_false, if_false]
      exact geoLoop_all_zero b rest hrest acc
    · simp only [geoLoop, if_neg ha]
      exact geoLoop_all_zero b rest hrest acc

theorem findAlgo_self {d : BlockData} {pp ps algo} (h : d.algo = algo) :
    findAlgo (.node d pp ps) algo = some (0, .node d pp ps) := by
  subst h
  rw [findAlgo.eq_def]
  simp

theorem findAlgo_other_prev {d : BlockData} {p ps algo} (h : d.algo ≠ algo) :
    findAlgo (.node d (some p) ps) algo =
      (findAlgo p algo).map (fun dm => (dm.1 + 1, dm.2)) := by
  rw [findAlgo.eq_def]
  simp [h]

theorem findAlgo_other_none {d : BlockData} {ps algo} (h : d.algo ≠ algo) :
    findAlgo (.node d none ps) algo = none := by
  rw [findAlgo.eq_def]
  simp [h]

theorem decay2Aux_self {d : BlockData} {pp ps algo n} (h : d.algo = algo) :
    decay2Aux (.node d pp ps) algo n =
      if n > 32 then 0
      else mul256 (getBlockProofBase (.node d pp ps)) (32 - n) / 32 := by
  subst h
  rw [decay2Aux.eq_def]
  simp

theorem decay2Aux_other_prev {d : BlockData} {p ps algo n} (h : d.algo ≠ algo) :
    decay2Aux (.node d (some p) ps) algo n =
      if n > 32 then 0 else decay2Aux p algo (n + 1) := by
  rw [decay2Aux.eq_def]
  simp [h]

theorem decay2Aux_other_none {d : BlockData} {ps algo n} (h : d.algo ≠ algo) :
    decay2Aux (.node d none ps) algo n = 0 := by
  rw [decay2Aux.eq_def]
  simp [h]

theorem decay2Aux_of_findAlgo_none : ∀ (b : CBlockIndex) (algo n : Nat),
    findAlgo b algo = none → decay2Aux b algo n = 0
  | .node d pp ps, algo, n, hfa => by
    by_cases ha : d.algo = algo
    · rw [findAlgo_self ha] at hfa
      exact Option.noConfusion hfa
    · cases pp with
      | none => exact decay2Aux_other_none ha
      | some p =>
        rw [findAlgo_other_prev ha, Option.map_eq_none'] at hfa
        rw [decay2Aux_other_prev ha, decay2Aux_of_findAlgo_none p algo (n + 1) hfa]
        simp

theorem decay2Aux_of_findAlgo_some : ∀ (b : CBlockIndex) (algo n dd : Nat)
    (mm : CBlockIndex), findAlgo b algo = some (dd, mm) →
    decay2Aux b algo n =
      if n + dd ≤ 32 then mul256 (getBlockProofBase mm) (32 - (n + dd)) / 32 else 0
  | .node d pp ps, algo, n, dd, mm, hfa => by
    by_cases ha : d.algo = algo
    · rw [findAlgo_self ha] at hfa
      have hdd : dd = 0 ∧ mm = CBlockIndex.node d pp ps := by
        cases hfa
        exact ⟨rfl, rfl⟩
      obtain ⟨rfl, rfl⟩ := hdd
      rw [decay2Aux_self ha]
      by_cases hn : n > 32
      · rw [if_pos hn, if_neg (by omega)]
      · rw [if_neg hn, if_pos (by omega), Nat.add_zero]
    · cases pp with
      | none =>
        rw [findAlgo_other_none ha] at hfa
        exact Option.noConfusion hfa
      | some p =>
        rw [findAlgo_other_prev ha, Option.map_eq_some'] at hfa
        obtain ⟨a, ha1, ha2⟩ := hfa
        have hdd : dd = a.1 + 1 := by
          have h1 := congrArg Prod.fst ha2
          simpa using h1.symm
        have hmm : mm = a.2 := by
          have h2 := congrArg Prod.snd ha2
          simpa using h2.symm
        subst hdd
        subst hmm
        have ha1' : findAlgo p algo = some (a.1, a.2) := by
          rw [ha1]
        rw [decay2Aux_other_prev ha,
          decay2Aux_of_findAlgo_some p algo (n + 1) a.1 a.2 ha1']
        by_cases hn : n > 32
        · rw [if_pos hn, if_neg (by omega)]
        · rw [if_neg hn]
          have e1 : n + 1 + a.1 = n + (a.1 + 1) := by omega
          rw [e1]

theorem decay2_eq_spec32 (b : CBlockIndex) (algo : Nat) :
    getPrevWorkForAlgoWithDecay2 b algo = specNearestPriorDecay 32 b algo := by
  unfold getPrevWorkForAlgoWithDecay2 specNearestPriorDecay
  cases hfa : findAlgo b algo with
  | none => rw [decay2Aux_of_findAlgo_none b algo 0 hfa]
  | some dm =>
    rw [decay2Aux_of_findAlgo_some b algo 0 dm.1 dm.2 (by rw [hfa])]
    simp

/-! ## Claim C10 -/

/-- C10 (amended): every nearest-prior search starts at the given block
itself, matching at distance 0 when the block's own tag is queried.  The
flat search then returns exactly the base work; the decay searches
return `base * window / window` in wrapping 256-bit arithmetic — equal
to the base work whenever `base * window < 2^256` — with Decay-v1
additionally flooring at `powLimit`; and `GetBlockProof`'s normalised
dispatcher queries only algorithms different from the block's own. -/
theorem C10_search_at_self :
    (∀ (p : ConsensusParams) (b : CBlockIndex) (algo : Nat), b.getAlgo = algo →
      getPrevWorkForAlgo p b algo = getBlockProofBase b) ∧
    (∀ (p : ConsensusParams) (b : CBlockIndex) (algo : Nat), b.getAlgo = algo →
      getPrevWorkForAlgoWithDecay p b algo =
        max p.powLimit (mul256 (getBlockProofBase b) 32 / 32)) ∧
    (∀ (b : CBlockIndex) (algo : Nat), b.getAlgo = algo →
      getPrevWorkForAlgoWithDecay2 b algo = mul256 (getBlockProofBase b) 32 / 32) ∧
    (∀ (b : CBlockIndex) (algo : Nat), b.getAlgo = algo →
      getPrevWorkForAlgoWithDecay3 b algo = mul256 (getBlockProofBase b) 100 / 100) ∧
    (∀ (b : CBlockIndex) (algo : Nat), b.getAlgo = algo →
      getBlockProofBase b * 100 < W256 →
      getPrevWorkForAlgoWithDecay2 b algo = getBlockProofBase b ∧
      getPrevWorkForAlgoWithDecay3 b algo = getBlockProofBase b) ∧
    (∀ (p : ConsensusParams) (b : CBlockIndex),
      ¬ (b.nHeight : Int) ≥ p.nGeoAvgWork_Start →
      (b.nHeight : Int) ≥ p.nBlockAlgoNormalisedWorkStart →
      ¬ (b.nHeight : Int) ≥ p.nBlockAlgoNormalisedWorkDecayStart1 →
      ¬ (b.nHeight : Int) ≥ p.nBlockAlgoNormalisedWorkDecayStart2 →
      getBlockProof p b =
        ((List.range NUM_ALGOS).filter (fun a => a ≠ b.getAlgo)).foldl
          (fun acc a => add256 acc (getPrevWorkForAlgo p b a))
          (getBlockProofBase b) / NUM_ALGOS) := by
  refine ⟨getPrevWorkForAlgo_self, decay1_self, decay2_self, decay3_self, ?_, ?_⟩
  · intro b algo h hlt
    constructor
    · rw [decay2_self b algo h, mul256_div_cancel (by omega) (by omega)]
    · rw [decay3_self b algo h, mul256_div_cancel (by omega) hlt]
  · intro p b hgeo hns hd1 hd2
    rw [getBlockProof_norm p b hgeo hns, workLoop_flat p b _ _ hd1 hd2]

/-- Counterexample for C10 as stated: with base work `2^255` the Decay-v2
search at the block's own algorithm returns `0` (the window product
wraps), not the base work; and with base work `0` the Decay-v1 search
returns the `powLimit` floor, not the base work. -/
theorem C10_counterexample :
    cexHuge.getAlgo = 0 ∧ getBlockProofBase cexHuge = 2 ^ 255 ∧
    getPrevWorkForAlgoWithDecay2 cexHuge 0 = 0 ∧ (0 : Nat) ≠ 2 ^ 255 ∧
    cexZeroBits.getAlgo = 0 ∧ getBlockProofBase cexZeroBits = 0 ∧
    getPrevWorkForAlgoWithDecay pLegacy cexZeroBits 0 = 7 ∧ (7 : Nat) ≠ 0 := by
  decide

/-- Witness for C10 on the sample chain and flat-regime parameters. -/
theorem C10_witness :
    getPrevWorkForAlgo pLegacy smpB5 0 = getBlockProofBase smpB5 ∧
    getPrevWorkForAlgoWithDecay2 smpB5 0 = getBlockProofBase smpB5 ∧
    getBlockProof pNorm smpB5 =
      ((List.range NUM_ALGOS).filter (fun a => a ≠ smpB5.getAlgo)).foldl
        (fun acc a => add256 acc (getPrevWorkForAlgo pNorm smpB5 a))
        (getBlockProofBase smpB5) / NUM_ALGOS :=
  ⟨C10_search_at_self.1 pLegacy smpB5 0 (by decide),
   (C10_search_at_self.2.2.2.2.1 smpB5 0 (by decide) (by decide)).1,
   C10_search_at_self.2.2.2.2.2 pNorm smpB5 (by decide) (by decide) (by decide) (by decide)⟩

/-! ## Claim C1 -/

/-- C1 (amended): the Decay-v2 nearest-prior contribution walks `pprev`
links from the current block and decays the found base work linearly
over a 32-block window (not 100): a match at distance `d ≤ 32`
contributes `baseWork * (32 - d) / 32` in wrapping 256-bit arithmetic,
and the contribution is `0` (no `powLimit` floor) when the walk exceeds
the window or reaches genesis without a match; in the Decay-v2 regime
`GetBlockProof` sums the block's base work with these contributions for
each other of the 5 averaged algorithms and divides by `NUM_ALGOS`. -/
theorem C1_decay2_window :
    (∀ (b : CBlockIndex) (algo : Nat),
      getPrevWorkForAlgoWithDecay2 b algo = specNearestPriorDecay 32 b algo) ∧
    (∀ (p : ConsensusParams) (b : CBlockIndex),
      ¬ (b.nHeight : Int) ≥ p.nGeoAvgWork_Start →
      (b.nHeight : Int) ≥ p.nBlockAlgoNormalisedWorkStart →
      (b.nHeight : Int) ≥ p.nBlockAlgoNormalisedWorkDecayStart2 →
      getBlockProof p b =
        ((List.range NUM_ALGOS).filter (fun a => a ≠ b.getAlgo)).foldl
          (fun acc a => add256 acc (getPrevWorkForAlgoWithDecay2 b a))
          (getBlockProofBase b) / NUM_ALGOS) := by
  refine ⟨decay2_eq_spec32, ?_⟩
  intro p b hgeo hns hd2
  rw [getBlockProof_norm p b hgeo hns, workLoop_d2 p b _ _ hd2]

/-- Counterexample for C1 as stated: on a two-block chain whose
predecessor has algorithm 1 and base work 1024, the Decay-v2 search at
distance 1 yields `1024 * 31 / 32 = 992`, not the claimed
`1024 * (100-1) / 100 = 1013` of a 100-block window. -/
theorem C1_counterexample :
    getBlockProofBase cexA = 1024 ∧ findAlgo cexB 1 = some (1, cexA) ∧
    getPrevWorkForAlgoWithDecay2 cexB 1 = 992 ∧
    specNearestPriorDecay 100 cexB 1 = 1013 ∧
    1024 * (100 - 1) / 100 = 1013 ∧ (992 : Nat) ≠ 1013 := by
  decide

/-- Witness for C1's dispatcher part at Decay-v2 parameters. -/
theorem C1_witness :
    getPrevWorkForAlgoWithDecay2 cexB 1 = specNearestPriorDecay 32 cexB 1 ∧
    getBlockProof pD2 cexB =
      ((List.range NUM_ALGOS).filter (fun a => a ≠ cexB.getAlgo)).foldl
        (fun acc a => add256 acc (getPrevWorkForAlgoWithDecay2 cexB a))
        (getBlockProofBase cexB) / NUM_ALGOS :=
  ⟨C1_decay2_window.1 cexB 1,
   C1_decay2_window.2 pD2 cexB (by decide) (by decide) (by decide)⟩

/-! ## Claim C5 -/

/-- C5: under the geometric-mean policy, when every other implemented
algorithm contributes decayed work `0`, the zero contributions are
excluded from the product (which would otherwise collapse to zero), so
the proof is the integer `NUM_ALGOS`-th root of the block's own base
work `W`, shifted left by 8; at the concrete scenario value `W = 2^50`
this equals `floor(W^(1/5)) << 8 = 2^10 << 8` with the floor property
checked exactly. -/
theorem C5_geoMean_zero_exclusion :
    (∀ b : CBlockIndex,
      (∀ a : Fin NUM_ALGOS_IMPL, (a : Nat) ≠ b.getAlgo →
        getPrevWorkForAlgoWithDecay3 b (a : Nat) = 0) →
      getGeometricMeanPrevWork b =
        shl256 (uint256_nthRoot NUM_ALGOS (getBlockProofBase b)) 8) ∧
    (getBlockProofBase smpGeo = 2 ^ 50 ∧
      getGeometricMeanPrevWork smpGeo = (2 ^ 10) <<< 8 ∧
      (2 ^ 10) ^ 5 ≤ 2 ^ 50 ∧ 2 ^ 50 < (2 ^ 10 + 1) ^ 5) := by
  constructor
  · intro b h
    unfold getGeometricMeanPrevWork
    rw [geoLoop_all_zero b (List.range NUM_ALGOS_IMPL) ?_ (getBlockProofBase b)]
    intro a ha hne
    exact h ⟨a, List.mem_range.1 ha⟩ hne
  · exact ⟨by decide, by decide, by decide, by decide⟩

/-- Witness for C5 at the scenario block (algorithm 2, base work `2^50`,
no other algorithm present). -/
theorem C5_witness :
    getGeometricMeanPrevWork smpGeo =
      shl256 (uint256_nthRoot NUM_ALGOS (getBlockProofBase smpGeo)) 8 :=
  C5_geoMean_zero_exclusion.1 smpGeo (by decide)

/-! ## Bit-length lemmas -/

theorem bitsAux_le_iff : ∀ (f n k : Nat), n < 2 ^ f → (bitsAux f n ≤ k ↔ n < 2 ^ k)
  | 0, n, k, hf => by
    have h1 : (2 : Nat) ^ 0 = 1 := rfl
    have hn : n = 0 := by omega
    subst hn
    simp only [bitsAux, Nat.zero_le, true_iff]
    exact pow_pos (show (0 : Nat) < 2 by norm_num) k
  | f + 1, n, k, hf => by
    by_cases h0 : n = 0
    · subst h0
      have hz : bitsAux (f + 1) 0 = 0 := rfl
      rw [hz]
      simp only [Nat.zero_le, true_iff]
      exact pow_pos (show (0 : Nat) < 2 by norm_num) k
    · simp only [bitsAux, if_neg h0]
      have h2f : (2 : Nat) ^ (f + 1) = 2 * 2 ^ f := by
        rw [Nat.pow_succ]
        ring
      cases k with
      | zero =>
        have h1 : (2 : Nat) ^ 0 = 1 := rfl
        constructor
        · intro h
          omega
        · intro h
          omega
      | succ k' =>
        have h2k : (2 : Nat) ^ (k' + 1) = 2 * 2 ^ k' := by
          rw [Nat.pow_succ]
          ring
        have hrec := bitsAux_le_iff f (n / 2) k' (by omega)
        constructor
        · intro h
          have h1 : bitsAux f (n / 2) ≤ k' := by omega
          have h2 := hrec.1 h1
          omega
        · intro h
          have h1 : n / 2 < 2 ^ k' := by omega
          have h2 := hrec.2 h1
          omega

theorem bits256_gt_63_iff {r : Nat} (hr : r < W256) : bits256 r > 63 ↔ 2 ^ 63 ≤ r := by
  have hr' : r < 2 ^ 257 := by
    have : W256 < 2 ^ 257 := by norm_num [W256]
    omega
  have h := bitsAux_le_iff 257 r 63 hr'
  unfold bits256
  constructor
  · intro hgt
    by_contra hc
    have := h.2 (by omega)
    omega
  · intro hge
    by_contra hc
    have := h.1 (by omega)
    omega

/-! ## Claim C6 -/

theorem ebt_eq (p : ConsensusParams) (toB fromB tipB : CBlockIndex) :
    getBlockProofEquivalentTime p toB fromB tipB =
      (let delta := if toB.nChainWork > fromB.nChainWork
          then toB.nChainWork - fromB.nChainWork else fromB.nChainWork - toB.nChainWork
       let sign : Int := if toB.nChainWork > fromB.nChainWork then 1 else -1
       let r := mul256 delta p.nPowTargetSpacingV2 / getBlockProof p tipB
       if bits256 r > 63 then sign * (2 ^ 63 - 1) else sign * (r % 2 ^ 64)) := by
  unfold getBlockProofEquivalentTime
  by_cases hgt : toB.nChainWork > fromB.nChainWork <;> simp [hgt]

theorem ebt_cases (p : ConsensusParams) (toB fromB tipB : CBlockIndex)
    (hproof : getBlockProof p tipB ≠ 0) :
    ∀ (delta : Nat) (sign : Int) (m : Nat),
      delta = (if toB.nChainWork > fromB.nChainWork then toB.nChainWork - fromB.nChainWork
               else fromB.nChainWork - toB.nChainWork) →
      sign = (if toB.nChainWork > fromB.nChainWork then (1 : Int) else -1) →
      m = delta * p.nPowTargetSpacingV2 % W256 / getBlockProof p tipB →
      ((2 ^ 63 - 1 < m → getBlockProofEquivalentTime p toB fromB tipB = sign * (2 ^ 63 - 1)) ∧
       (m ≤ 2 ^ 63 - 1 → getBlockProofEquivalentTime p toB fromB tipB = sign * m) ∧
       (delta * p.nPowTargetSpacingV2 < W256 →
          m = delta * p.nPowTargetSpacingV2 / getBlockProof p tipB)) := by
  have hW : 0 < W256 := by norm_num [W256]
  intro delta sign m hd hs hm
  have hmW : m < W256 := by
    have h1 : delta * p.nPowTargetSpacingV2 % W256 < W256 := Nat.mod_lt _ hW
    have h2 : m ≤ delta * p.nPowTargetSpacingV2 % W256 := by
      rw [hm]
      exact Nat.div_le_self _ _
    omega
  have hr : mul256 delta p.nPowTargetSpacingV2 / getBlockProof p tipB = m := by
    rw [hm]
    rfl
  refine ⟨?_, ?_, ?_⟩
  · intro hsat
    rw [ebt_eq, ← hd, ← hs]
    simp only [hr]
    rw [if_pos ((bits256_gt_63_iff hmW).2 (by omega))]
  · intro hns
    rw [ebt_eq, ← hd, ← hs]
    simp only [hr]
    rw [if_neg ?hb]
    case hb =>
      rw [bits256_gt_63_iff hmW]
      omega
    have hm64 : ((m : Int) % 2 ^ 64) = m := Int.emod_eq_of_lt (by omega) (by omega)
    rw [hm64]
  · intro hnowrap
    rw [hm, Nat.mod_eq_of_lt hnowrap]

/-- C6 (amended): `EquivalentTime(X, X, tip) = 0`; and for all inputs the
result is `sign` times the magnitude `(delta * targetSpacing mod 2^256) /
GetBlockProof(tip)` computed in wrapping 256-bit arithmetic, saturating
to `sign * (2^63 - 1)` exactly when that wrapped magnitude exceeds
`2^63 - 1`.  The wrapped magnitude agrees with the claim's unsaturated
`floor(delta * targetSpacing / proof)` whenever the product does not
wrap; the counterexample shows they differ (and the claim fails) when it
does. -/
theorem C6_equivalentTime_spec (p : ConsensusParams) (toB fromB tipB : CBlockIndex)
    (hproof : getBlockProof p tipB ≠ 0) :
    getBlockProofEquivalentTime p toB toB tipB = 0 ∧
    (∀ (delta : Nat) (sign : Int) (m : Nat),
      delta = (if toB.nChainWork > fromB.nChainWork then toB.nChainWork - fromB.nChainWork
               else fromB.nChainWork - toB.nChainWork) →
      sign = (if toB.nChainWork > fromB.nChainWork then (1 : Int) else -1) →
      m = delta * p.nPowTargetSpacingV2 % W256 / getBlockProof p tipB →
      ((2 ^ 63 - 1 < m → getBlockProofEquivalentTime p toB fromB tipB = sign * (2 ^ 63 - 1)) ∧
       (m ≤ 2 ^ 63 - 1 → getBlockProofEquivalentTime p toB fromB tipB = sign * m) ∧
       (delta * p.nPowTargetSpacingV2 < W256 →
          m = delta * p.nPowTargetSpacingV2 / getBlockProof p tipB))) := by
  constructor
  · have h := (ebt_cases p toB toB tipB hproof 0 (-1) 0 ?hd ?hs ?hm).2.1
      (by norm_num)
    case hd =>
      rw [if_neg (lt_irrefl _)]
      omega
    case hs =>
      rw [if_neg (lt_irrefl _)]
    case hm =>
      simp
    simpa using h
  · exact ebt_cases p toB fromB tipB hproof

/-- Counterexample for C6 as stated: with work delta `2^252`, spacing
`16` and tip proof `2`, the unsaturated magnitude is `2^255`, far above
`2^63 - 1`, so the claim demands saturation to `+(2^63 - 1)` — but the
product wraps modulo `2^256` to `0` and the code returns `0`. -/
theorem C6_counterexample :
    smpTo.nChainWork > smpTip.nChainWork ∧
    2 ^ 63 - 1 <
      (smpTo.nChainWork - smpTip.nChainWork) * pLegacy.nPowTargetSpacingV2 /
        getBlockProof pLegacy smpTip ∧
    getBlockProofEquivalentTime pLegacy smpTo smpTip smpTip = 0 ∧
    (0 : Int) ≠ 1 * (2 ^ 63 - 1) := by
  decide

/-- Witness for C6's zero-delta case at concrete inputs. -/
theorem C6_witness :
    getBlockProof pLegacy smpTip ≠ 0 ∧
    getBlockProofEquivalentTime pLegacy smpTo smpTo smpTip = 0 :=
  ⟨by decide, (C6_equivalentTime_spec pLegacy smpTo smpTo smpTip (by decide)).1⟩

/-! ## Chain-projection lemmas -/

theorem chainAt_set_self {v : ChainL} {i : Nat} {x} (h : i < v.length) :
    chainAt (v.set i x) i = x := by
  unfold chainAt
  rw [List.getD_eq_getElem?_getD, List.getElem?_set_self h]
  rfl

theorem chainAt_set_ne {v : ChainL} {i j : Nat} {x} (h : i ≠ j) :
    chainAt (v.set i x) j = chainAt v j := by
  unfold chainAt
  rw [List.getD_eq_getElem?_getD, List.getD_eq_getElem?_getD, List.getElem?_set_ne h]

theorem chainAt_beyond {v : ChainL} {h : Nat} (hh : v.length ≤ h) : chainAt v h = none := by
  unfold chainAt
  rw [List.getD_eq_getElem?_getD, List.getElem?_eq_none hh]
  rfl

theorem chainAt_lt {v : ChainL} {h : Nat} (hh : h < v.length) : chainAt v h = v[h] := by
  unfold chainAt
  rw [List.getD_eq_getElem?_getD, List.getElem?_eq_getElem hh]
  rfl

theorem length_projChain (T : CBlockIndex) : (projChain T).length = T.nHeight + 1 := by
  unfold projChain
  simp

theorem chainAt_projChain {T : CBlockIndex} {h : Nat} (hh : h ≤ T.nHeight) :
    chainAt (projChain T) h = nthAncestor T h := by
  unfold projChain chainAt
  rw [List.getD_eq_getElem?_getD, List.getElem?_map, List.getElem?_range (by omega)]
  rfl

theorem length_resize (v : ChainL) (n : Nat) : (resizeChain v n).length = n := by
  unfold resizeChain
  simp only [List.length_append, List.length_take, List.length_replicate]
  omega

theorem chainAt_resize {v : ChainL} {n h : Nat} (hh : h < n) :
    chainAt (resizeChain v n) h = if h < v.length then chainAt v h else none := by
  unfold resizeChain chainAt
  by_cases hv : h < v.length
  · rw [if_pos hv, List.getD_eq_getElem?_getD, List.getD_eq_getElem?_getD,
      List.getElem?_append_left (by simp; omega), List.getElem?_take_of_lt hh]
  · rw [if_neg hv, List.getD_eq_getElem?_getD,
      List.getElem?_append_right (by simp; omega)]
    simp only [List.length_take]
    rw [List.getElem?_replicate]
    split
    · rfl
    · rfl

theorem containsB_iff {v : ChainL} {Y : CBlockIndex} :
    containsB v Y = true ↔ chainAt v Y.nHeight = some Y := by
  unfold containsB
  exact beq_iff_eq

theorem containsB_projChain {T : CBlockIndex} (hT : wf T = true) (Y : CBlockIndex) :
    containsB (projChain T) Y = true ↔ nthAncestor T Y.nHeight = some Y := by
  rw [containsB_iff]
  by_cases hy : Y.nHeight ≤ T.nHeight
  · rw [chainAt_projChain hy]
  · rw [chainAt_beyond (by rw [length_projChain]; omega),
      nthAncestor_gt T hT _ (by omega)]

/-! ## The SetTip write-back loop -/

theorem setTipLoop_stop {b : CBlockIndex} {v : ChainL}
    (h : chainAt v b.nHeight = some b) : setTipLoop b v = v := by
  obtain ⟨d, pp, ps⟩ := b
  rw [setTipLoop.eq_def]
  simp only [if_pos h]

theorem setTipLoop_go_prev {d : BlockData} {p ps} {v : ChainL}
    (h : ¬ chainAt v (CBlockIndex.node d (some p) ps).nHeight =
        some (.node d (some p) ps)) :
    setTipLoop (.node d (some p) ps) v =
      setTipLoop p (v.set (CBlockIndex.node d (some p) ps).nHeight
        (some (.node d (some p) ps))) := by
  rw [setTipLoop.eq_def]
  simp only [if_neg h]

theorem setTipLoop_go_none {d : BlockData} {ps} {v : ChainL}
    (h : ¬ chainAt v (CBlockIndex.node d none ps).nHeight = some (.node d none ps)) :
    setTipLoop (.node d none ps) v =
      v.set (CBlockIndex.node d none ps).nHeight (some (.node d none ps)) := by
  rw [setTipLoop.eq_def]
  simp only [if_neg h]

theorem setTipLoop_proj : ∀ (b : CBlockIndex), wf b = true → ∀ (v : ChainL),
    b.nHeight < v.length →
    (∀ h c, h ≤ b.nHeight → chainAt v h = some c →
      ∀ h', h' ≤ h → chainAt v h' = nthAncestor c h') →
    (setTipLoop b v).length = v.length ∧
    (∀ h, h ≤ b.nHeight → chainAt (setTipLoop b v) h = nthAncestor b h) ∧
    (∀ h, b.nHeight < h → chainAt (setTipLoop b v) h = chainAt v h)
  | .node d pp ps, hwf, v, hlen, hsc => by
    by_cases hstop :
        chainAt v (CBlockIndex.node d pp ps).nHeight = some (.node d pp ps)
    · rw [setTipLoop_stop hstop]
      exact ⟨rfl, fun h hh => hsc _ _ le_rfl hstop h hh, fun h _ => rfl⟩
    · cases pp with
      | none =>
        have hd0 : d.nHeight = 0 := wf_pprev_none hwf
        rw [setTipLoop_go_none hstop]
        simp only [nHeight_node] at hlen ⊢
        refine ⟨by simp, ?_, ?_⟩
        · intro h hh
          have h0 : h = d.nHeight := by omega
          subst h0
          rw [chainAt_set_self hlen, nthAncestor_eq_self rfl]
        · intro h hh
          exact chainAt_set_ne (by omega)
      | some p =>
        have ⟨hh1, hwp⟩ := wf_pprev_some hwf
        rw [setTipLoop_go_prev hstop]
        simp only [nHeight_node] at hlen ⊢
        have hplen : p.nHeight <
            (v.set d.nHeight (some (CBlockIndex.node d (some p) ps))).length := by
          simp only [List.length_set]
          omega
        have hpsc : ∀ h c, h ≤ p.nHeight →
            chainAt (v.set d.nHeight (some (CBlockIndex.node d (some p) ps))) h = some c →
            ∀ h', h' ≤ h →
              chainAt (v.set d.nHeight (some (CBlockIndex.node d (some p) ps))) h' =
                nthAncestor c h' := by
          intro h c hh hc h' hh'
          rw [chainAt_set_ne (by omega)] at hc
          rw [chainAt_set_ne (by omega)]
          exact hsc h c (by simp only [nHeight_node]; omega) hc h' hh'
        obtain ⟨il, ilow, ihigh⟩ := setTipLoop_proj p hwp _ hplen hpsc
        refine ⟨by rw [il]; simp, ?_, ?_⟩
        · intro h hh
          by_cases hple : h ≤ p.nHeight
          · rw [ilow h hple, nthAncestor_eq_prev (by omega)]
          · have hhd : h = d.nHeight := by omega
            subst hhd
            rw [ihigh _ (by omega), chainAt_set_self hlen, nthAncestor_eq_self rfl]
        · intro h hh
          rw [ihigh h (by omega), chainAt_set_ne (by omega)]

theorem setTip_proj {v : ChainL} (hv : chainValid v) {X : CBlockIndex}
    (hX : wf X = true) : setTip v (some X) = projChain X := by
  have hr : ∀ h c, h ≤ X.nHeight →
      chainAt (resizeChain v (X.nHeight + 1)) h = some c →
      ∀ h', h' ≤ h →
        chainAt (resizeChain v (X.nHeight + 1)) h' = nthAncestor c h' := by
    intro h c hh hc h' hh'
    rw [chainAt_resize (by omega)] at hc
    rw [chainAt_resize (by omega)]
    rcases hv with rfl | ⟨T, hT, rfl⟩
    · simp only [List.length_nil] at hc
      rw [if_neg (by omega)] at hc
      exact Option.noConfusion hc
    · by_cases hvl : h < (projChain T).length
      · rw [if_pos hvl] at hc
        have hhT : h ≤ T.nHeight := by
          rw [length_projChain] at hvl
          omega
        rw [chainAt_projChain hhT] at hc
        rw [if_pos (by omega), chainAt_projChain (by omega)]
        exact (nthAncestor_trans T hT h c hc h' hh').symm
      · rw [if_neg hvl] at hc
        exact Option.noConfusion hc
  obtain ⟨il, ilow, ihigh⟩ :=
    setTipLoop_proj X hX _ (by rw [length_resize]; omega) hr
  show setTipLoop X (resizeChain v (X.nHeight + 1)) = projChain X
  apply List.ext_getElem
  · rw [il, length_resize, length_projChain]
  · intro i h1 h2
    rw [← chainAt_lt h1, ← chainAt_lt h2]
    have hi : i ≤ X.nHeight := by
      rw [il, length_resize] at h1
      omega
    rw [ilow i hi, chainAt_projChain hi]

/-! ## Claim C3 -/

/-- C3: after `SetTip(X)` on a valid prior chain state (empty or a
projection — the only states `SetTip` produces), the entry at each
height `0 ≤ h ≤ X.height` is `X.GetAncestor(h)`; `Contains(Y)` holds iff
`Y` is the entry at `Y.height`, i.e. iff `Y = X.GetAncestor(Y.height)`;
and `SetTip(null)` empties the projection. -/
theorem C3_setTip_spec (v : ChainL) (X : CBlockIndex) (hv : chainValid v)
    (hX : wf X = true) :
    (∀ h : Int, 0 ≤ h → h ≤ (X.nHeight : Int) →
        chainAt (setTip v (some X)) h.toNat = getAncestor X h) ∧
    (∀ Y : CBlockIndex, containsB (setTip v (some X)) Y = true ↔
        getAncestor X (Y.nHeight : Int) = some Y) ∧
    setTip v none = [] := by
  rw [setTip_proj hv hX]
  refine ⟨?_, ?_, rfl⟩
  · intro h h0 hle
    rw [chainAt_projChain (by omega), getAncestor_eq hX h0 hle]
  · intro Y
    rw [containsB_projChain hX Y]
    by_cases hy : Y.nHeight ≤ X.nHeight
    · rw [getAncestor_eq hX (by omega) (by omega)]
      rw [Int.toNat_natCast]
    · rw [getAncestor_out_of_range (Or.inr (by omega)),
        nthAncestor_gt X hX _ (by omega)]

/-- Witness for C3: reorganising the sample chain from tip `smpB2` to
tip `smpB4`. -/
theorem C3_witness :
    chainValid (projChain smpB2) ∧ wf smpB4 = true ∧
    chainAt (setTip (projChain smpB2) (some smpB4)) ((1 : Int)).toNat =
      getAncestor smpB4 1 ∧
    (containsB (setTip (projChain smpB2) (some smpB4)) smpB3 = true ↔
      getAncestor smpB4 ((smpB3.nHeight : Int)) = some smpB3) ∧
    setTip (projChain smpB2) none = [] := by
  have hv : chainValid (projChain smpB2) := Or.inr ⟨smpB2, by decide, rfl⟩
  have hspec := C3_setTip_spec (projChain smpB2) smpB4 hv (by decide)
  exact ⟨hv, by decide, hspec.1 1 (by decide) (by decide), hspec.2.1 smpB3, hspec.2.2⟩

/-! ## Ancestor-chain lemmas for FindFork -/

theorem nthAncestor_of_onPrevChain : ∀ (b : CBlockIndex), wf b = true →
    ∀ a : CBlockIndex, onPrevChain a b = true → nthAncestor b a.nHeight = some a
  | .node d pp ps, hwf, a, ha => by
    by_cases heq : CBlockIndex.node d pp ps = a
    · subst heq
      rw [nHeight_node]
      exact nthAncestor_eq_self rfl
    · cases pp with
      | none =>
        rw [onPrevChain_ne_none heq] at ha
        exact Bool.noConfusion ha
      | some p =>
        rw [onPrevChain_ne_prev heq] at ha
        have ⟨hh1, hwp⟩ := wf_pprev_some hwf
        have hrec := nthAncestor_of_onPrevChain p hwp a ha
        have hah : a.nHeight ≤ p.nHeight := by
          by_contra hc
          rw [nthAncestor_gt p hwp _ (by omega)] at hrec
          exact Option.noConfusion hrec
        rw [nthAncestor_eq_prev (by omega)]
        exact hrec

theorem wf_of_onPrevChain {b : CBlockIndex} (hwf : wf b = true) {a : CBlockIndex}
    (ha : onPrevChain a b = true) : wf a = true :=
  (nthAncestor_wf hwf (nthAncestor_of_onPrevChain b hwf a ha)).2

theorem onPrevChain_height_le {b : CBlockIndex} (hwf : wf b = true) {a : CBlockIndex}
    (ha : onPrevChain a b = true) : a.nHeight ≤ b.nHeight := by
  by_contra hc
  have h := nthAncestor_of_onPrevChain b hwf a ha
  rw [nthAncestor_gt b hwf _ (by omega)] at h
  exact Option.noConfusion h

theorem onPrevChain_cases {d : BlockData} {pp ps} {a : CBlockIndex}
    (h : onPrevChain a (.node d pp ps) = true) :
    CBlockIndex.node d pp ps = a ∨ ∃ p, pp = some p ∧ onPrevChain a p = true := by
  by_cases heq : CBlockIndex.node d pp ps = a
  · exact Or.inl heq
  · cases pp with
    | none =>
      rw [onPrevChain_ne_none heq] at h
      exact Bool.noConfusion h
    | some p =>
      rw [onPrevChain_ne_prev heq] at h
      exact Or.inr ⟨p, rfl, h⟩

theorem onPrevChain_of_prev {d : BlockData} {p ps} {a : CBlockIndex}
    (h : onPrevChain a p = true) : onPrevChain a (.node d (some p) ps) = true := by
  by_cases heq : CBlockIndex.node d (some p) ps = a
  · rw [heq]
    exact onPrevChain_self a
  · rw [onPrevChain_ne_prev heq]
    exact h

theorem onPrevChain_trans {c : CBlockIndex} (hc : wf c = true) {b a : CBlockIndex}
    (hbc : onPrevChain b c = true) (hab : onPrevChain a b = true) :
    onPrevChain a c = true := by
  have h1 := nthAncestor_of_onPrevChain c hc b hbc
  have hwb := wf_of_onPrevChain hc hbc
  have h2 := nthAncestor_of_onPrevChain b hwb a hab
  have hle := onPrevChain_height_le hwb hab
  have h3 := nthAncestor_trans c hc b.nHeight b h1 a.nHeight hle
  rw [h3] at h2
  exact onPrevChain_of_nthAncestor c a.nHeight a h2

/-! ## The FindFork walk -/

theorem ffWalk_stop {v : ChainL} {b : CBlockIndex} (h : containsB v b = true) :
    ffWalk v b = some b := by
  obtain ⟨d, pp, ps⟩ := b
  rw [ffWalk.eq_def]
  simp only [if_pos h]

theorem ffWalk_go_prev {v : ChainL} {d : BlockData} {p ps}
    (h : ¬ containsB v (CBlockIndex.node d (some p) ps) = true) :
    ffWalk v (.node d (some p) ps) = ffWalk v p := by
  rw [ffWalk.eq_def]
  simp only [if_neg h]

theorem ffWalk_go_none {v : ChainL} {d : BlockData} {ps}
    (h : ¬ containsB v (CBlockIndex.node d none ps) = true) :
    ffWalk v (.node d none ps) = none := by
  rw [ffWalk.eq_def]
  simp only [if_neg h]

theorem ffWalk_correct (v : ChainL) : ∀ A : CBlockIndex, wf A = true →
    (∀ r, ffWalk v A = some r →
      onPrevChain r A = true ∧ containsB v r = true ∧
      ∀ Y, onPrevChain Y A = true → containsB v Y = true → Y.nHeight ≤ r.nHeight) ∧
    (ffWalk v A = none → ∀ Y, onPrevChain Y A = true → containsB v Y = false)
  | .node d pp ps, hwf => by
    by_cases hc : containsB v (CBlockIndex.node d pp ps) = true
    · rw [ffWalk_stop hc]
      constructor
      · intro r hr
        cases hr
        exact ⟨onPrevChain_self _, hc, fun Y hY _ => onPrevChain_height_le hwf hY⟩
      · intro h0
        exact Option.noConfusion h0
    · cases pp with
      | none =>
        rw [ffWalk_go_none hc]
        constructor
        · intro r hr
          exact Option.noConfusion hr
        · intro _ Y hY
          rcases onPrevChain_cases hY with heq | ⟨p, hp, _⟩
          · rw [← heq]
            exact Bool.eq_false_iff.mpr hc
          · exact Option.noConfusion hp
      | some p =>
        have ⟨hh1, hwp⟩ := wf_pprev_some hwf
        rw [ffWalk_go_prev hc]
        obtain ⟨ihs, ihn⟩ := ffWalk_correct v p hwp
        constructor
        · intro r hr
          obtain ⟨h1, h2, h3⟩ := ihs r hr
          refine ⟨onPrevChain_of_prev h1, h2, ?_⟩
          intro Y hY hYc
          rcases onPrevChain_cases hY with heq | ⟨p', hp', hYp⟩
          · rw [← heq] at hYc
            exact absurd hYc hc
          · cases hp'
            exact h3 Y hYp hYc
        · intro h0 Y hY
          rcases onPrevChain_cases hY with heq | ⟨p', hp', hYp⟩
          · rw [← heq]
            exact Bool.eq_false_iff.mpr hc
          · cases hp'
            exact ihn h0 Y hYp

theorem chainHeight_projChain (T : CBlockIndex) :
    chainHeight (projChain T) = (T.nHeight : Int) := by
  unfold chainHeight
  rw [length_projChain]
  push_cast
  ring

theorem findFork_some_eq {v : ChainL} {b b' : CBlockIndex}
    (h : (if (b.nHeight : Int) > chainHeight v then getAncestor b (chainHeight v)
          else some b) = some b') :
    findFork v (some b) = ffWalk v b' := by
  show (match (if (b.nHeight : Int) > chainHeight v then getAncestor b (chainHeight v)
        else some b) with
    | some b' => ffWalk v b'
    | none => none) = ffWalk v b'
  rw [h]

/-! ## Claim C9 -/

/-- C9 (amended): `FindFork` returns the deepest node that is an
ancestor of both the node and the active chain, descending the node to
the chain's height first when necessary; it returns an empty result when
the node is empty — and also when a non-empty node shares no ancestor
with the chain (different genesis), contrary to the claim's "only when
node is empty". -/
theorem C9_findFork_spec (T N : CBlockIndex) (hT : wf T = true) (hN : wf N = true) :
    findFork (projChain T) none = none ∧
    (nthAncestor N 0 = nthAncestor T 0 →
      ∃ F, findFork (projChain T) (some N) = some F ∧
        onPrevChain F N = true ∧ containsB (projChain T) F = true ∧
        ∀ Y, onPrevChain Y N = true → containsB (projChain T) Y = true →
          Y.nHeight ≤ F.nHeight) ∧
    (nthAncestor N 0 ≠ nthAncestor T 0 → findFork (projChain T) (some N) = none) := by
  have hA : ∃ A : CBlockIndex,
      (if (N.nHeight : Int) > chainHeight (projChain T)
        then getAncestor N (chainHeight (projChain T)) else some N) = some A ∧
      wf A = true ∧ onPrevChain A N = true ∧
      (∀ h, h ≤ A.nHeight → nthAncestor A h = nthAncestor N h) ∧
      (∀ Y : CBlockIndex, onPrevChain Y N = true → Y.nHeight ≤ T.nHeight →
        onPrevChain Y A = true) := by
    by_cases hgt : (N.nHeight : Int) > chainHeight (projChain T)
    · have hgt' : T.nHeight < N.nHeight := by
        rw [chainHeight_projChain] at hgt
        exact_mod_cast hgt
      obtain ⟨A, hA1, hA2, hA3⟩ := nthAncestor_le N hN T.nHeight (by omega)
      refine ⟨A, ?_, hA3, onPrevChain_of_nthAncestor N T.nHeight A hA1, ?_, ?_⟩
      · rw [if_pos hgt, chainHeight_projChain,
          getAncestor_eq hN (by omega) (by exact_mod_cast Nat.le_of_lt hgt'),
          Int.toNat_natCast]
        exact hA1
      · intro h hh
        rw [hA2] at hh
        exact nthAncestor_trans N hN T.nHeight A hA1 h hh
      · intro Y hY hYT
        have h1 := nthAncestor_of_onPrevChain N hN Y hY
        have h2 := nthAncestor_trans N hN T.nHeight A hA1 Y.nHeight (by omega)
        rw [← h2] at h1
        exact onPrevChain_of_nthAncestor A Y.nHeight Y h1
    · refine ⟨N, by rw [if_neg hgt], hN, onPrevChain_self N,
        fun h _ => rfl, fun Y hY _ => hY⟩
  obtain ⟨A, hAeq, hAwf, hAN, hAanc, hAcomm⟩ := hA
  refine ⟨rfl, ?_, ?_⟩
  · intro hgen
    obtain ⟨G, hG1, hG2, hG3⟩ := nthAncestor_le N hN 0 (Nat.zero_le _)
    have hGA : onPrevChain G A = true := by
      apply onPrevChain_of_nthAncestor A 0
      rw [hAanc 0 (Nat.zero_le _)]
      exact hG1
    have hGc : containsB (projChain T) G = true := by
      rw [containsB_projChain hT, hG2, ← hgen]
      exact hG1
    rw [findFork_some_eq hAeq]
    obtain ⟨ihs, ihn⟩ := ffWalk_correct (projChain T) A hAwf
    cases hff : ffWalk (projChain T) A with
    | none =>
      have hGf := ihn hff G hGA
      rw [hGc] at hGf
      exact Bool.noConfusion hGf
    | some F =>
      obtain ⟨h1, h2, h3⟩ := ihs F hff
      refine ⟨F, rfl, onPrevChain_trans hN hAN h1, h2, ?_⟩
      intro Y hY hYc
      have hYT : Y.nHeight ≤ T.nHeight := by
        rw [containsB_projChain hT] at hYc
        by_contra hcc
        rw [nthAncestor_gt T hT _ (by omega)] at hYc
        exact Option.noConfusion hYc
      exact h3 Y (hAcomm Y hY hYT) hYc
  · intro hgen
    rw [findFork_some_eq hAeq]
    cases hff : ffWalk (projChain T) A with
    | none => rfl
    | some F =>
      obtain ⟨h1, h2, h3⟩ := (ffWalk_correct (projChain T) A hAwf).1 F hff
      exfalso
      apply hgen
      have hFN : onPrevChain F N = true := onPrevChain_trans hN hAN h1
      have hf1 := nthAncestor_of_onPrevChain N hN F hFN
      have hNF := nthAncestor_trans N hN F.nHeight F hf1 0 (Nat.zero_le _)
      rw [containsB_projChain hT] at h2
      have hTF := nthAncestor_trans T hT F.nHeight F h2 0 (Nat.zero_le _)
      rw [← hNF, hTF]

/-- Counterexample for C9 as stated: a non-empty, well-formed node with a
different genesis than the active chain yields an empty `FindFork`
result, so "returns empty only when the node is empty" is false. -/
theorem C9_counterexample :
    wf smpG = true ∧ wf cexT1 = true ∧
    findFork (projChain smpG) (some cexT1) = none ∧
    (some cexT1 : Option CBlockIndex).isSome = true := by
  decide

/-- Witness for C9 on the sample chain: the fork of `smpB3` with the
chain of tip `smpB5` is found. -/
theorem C9_witness :
    wf smpB5 = true ∧ wf smpB3 = true ∧
    nthAncestor smpB3 0 = nthAncestor smpB5 0 ∧
    (∃ F, findFork (projChain smpB5) (some smpB3) = some F ∧
      onPrevChain F smpB3 = true ∧ containsB (projChain smpB5) F = true ∧
      ∀ Y, onPrevChain Y smpB3 = true → containsB (projChain smpB5) Y = true →
        Y.nHeight ≤ F.nHeight) :=
  ⟨by decide, by decide, by decide,
   (C9_findFork_spec smpB5 smpB3 (by decide) (by decide)).2.1 (by decide)⟩

end Myriad
